import Mathlib

/-!
# Verification of the typed-i18n runtime core

Shallow embedding of the runtime part of `@qzl/typed-i18n` (file
`src/index.ts` of the repository): the JSON translation-tree data model,
`defineModule` with its structural validator (`compareStructure`), the
modern engine (`createI18n` with `t`, `setLocale`, `addModule`,
`getLocales`) and the legacy engine (`createI18nLegacy`).

JavaScript objects are modelled as association lists in insertion order
(JS objects cannot hold duplicate keys; theorems that depend on key
uniqueness carry explicit `nodupKeys` hypotheses).  Property access on the
JSON data model is object key lookup; `undefined` is `Option.none`, the
JSON `null` leaf is `JSONValue.null`, and the loose `== null` test of the
source is `isNullish`.
-/

set_option maxHeartbeats 1000000

namespace TypedI18n

/-- JSON values, mirroring the `JSONValue` type of the source.  Numbers are
modelled as integers (the source only ever renders and interpolates
integer-valued numbers; floating point is not load-bearing anywhere). -/
inductive JSONValue where
  | str (s : String)
  | num (n : Int)
  | bool (b : Bool)
  | null
  | obj (entries : List (String × JSONValue))
  | arr (elems : List JSONValue)

/-- First-match association-list lookup: `record[key]` on a JS object
holding own string keys, `undefined` (= `none`) when absent. -/
def jsLookup {α : Type} : List (String × α) → String → Option α
  | [], _ => none
  | (k, v) :: rest, key => if k = key then some v else jsLookup rest key

/-- `cur[p]` for a value of the JSON data model: key lookup on objects,
no own properties on any other value. -/
def jsGet : JSONValue → String → Option JSONValue
  | .obj kvs, p => jsLookup kvs p
  | _, _ => none

/-- The loose `x == null` test of the source: true exactly for
`undefined` and `null`. -/
def isNullish : Option JSONValue → Bool
  | none => true
  | some .null => true
  | _ => false

/-- `path.split(".")` on the character list of the path (JS
`String.prototype.split` with a one-character separator). -/
def splitDotsGo (acc : List Char) : List Char → List String
  | [] => [String.mk acc.reverse]
  | c :: rest =>
      if c = '.' then String.mk acc.reverse :: splitDotsGo [] rest
      else splitDotsGo (c :: acc) rest

def splitDots (cs : List Char) : List String := splitDotsGo [] cs

/-- The `for (const p of parts)` loop of `getFromPath`: returns
`undefined` as soon as the cursor is nullish, otherwise indexes and
continues; the final cursor is returned as-is (it may itself be `null`). -/
def walkPath : Option JSONValue → List String → Option JSONValue
  | cur, [] => cur
  | cur, p :: rest =>
      match cur with
      | none => none
      | some .null => none
      | some v => walkPath (jsGet v p) rest

/-- `getFromPath(obj, path)` of the source: empty path is `undefined`,
otherwise the dot-segments of `path` are walked through `obj`. -/
def getFromPath (obj : Option JSONValue) (path : String) : Option JSONValue :=
  if path = "" then none
  else walkPath obj (splitDots path.data)

/-- Values allowed in the `Params` interpolation record of the source
(`string | number | boolean`). -/
inductive PValue where
  | str (s : String)
  | num (n : Int)
  | bool (b : Bool)

/-- `String(v)` on a params value. -/
def pvToString : PValue → String
  | .str s => s
  | .num n => toString n
  | .bool b => if b then "true" else "false"

/-- A `Params` record. -/
abbrev Params := List (String × PValue)

/-- The whitespace class `\s` of the interpolation regex /
`String.prototype.trim` (ASCII part). -/
def isWsChar (c : Char) : Bool :=
  c = ' ' || c = '\t' || c = '\n' || c = '\r' || c = '\x0b' || c = '\x0c'

/-- `s.trim()` on a character list. -/
def trimList (cs : List Char) : List Char :=
  ((cs.dropWhile isWsChar).reverse.dropWhile isWsChar).reverse

/-- `s.trim()`. -/
def jsTrim (s : String) : String := String.mk (trimList s.data)

/-- Replacement text for one matched placeholder: the captured text is
trimmed, looked up in the params record, absent (`undefined`, i.e. `== null`)
becomes the empty string, otherwise `String(v)`. -/
def replOf (ps : Params) (run : List Char) : List Char :=
  match jsLookup ps (jsTrim (String.mk run)) with
  | none => []
  | some v => (pvToString v).data

/-- Scanner for `template.replace(/\{\{\s*([^}]+)\s*\}\}/g, ...)`.
A match starts at `{{`, captures the maximal nonempty run of
non-`}` characters, and requires `}}` immediately after it; on a failed
attempt the scan resumes one character further (at the second `{`),
exactly like the regex engine.  `fuel` is an upper bound on the number of
scanning steps (each step consumes at least one character), making the
function structurally recursive; it is initialised to the template
length, which is always sufficient. -/
def interpGoF (ps : Params) : Nat → List Char → List Char
  | 0, l => l
  | _ + 1, [] => []
  | _ + 1, [c] => [c]
  | fuel + 1, c1 :: c2 :: rest =>
      let run := rest.takeWhile (fun d => ¬ d = '}')
      let after := rest.drop run.length
      if c1 = '{' ∧ c2 = '{' ∧ ¬ run = [] ∧ after.take 2 = ['}', '}'] then
        replOf ps run ++ interpGoF ps fuel (after.drop 2)
      else c1 :: interpGoF ps fuel (c2 :: rest)

/-- `interpolate(template, params?)` of the source: with no params record
the template is returned unchanged (`if (!params) return template`),
otherwise every placeholder is replaced. -/
def interpolate (template : String) (params : Option Params) : String :=
  match params with
  | none => template
  | some ps => String.mk (interpGoF ps template.data.length template.data)

mutual

/-- `String(value)` for a JSON value of the data model (the final
`return String(value)` of `t`). -/
def jsString : JSONValue → String
  | .str s => s
  | .num n => toString n
  | .bool b => if b then "true" else "false"
  | .null => "null"
  | .obj _ => "[object Object]"
  | .arr xs => String.intercalate "," (jsArrElems xs)

/-- `Array.prototype.toString` element stringification: `null` elements
render as the empty string. -/
def jsArrElems : List JSONValue → List String
  | [] => []
  | .null :: rest => "" :: jsArrElems rest
  | v :: rest => jsString v :: jsArrElems rest

end

/-- An `I18nModule` value: `{ namespace, translations }` (the `namespace`
field is spelled `nspace`, `namespace` being a Lean keyword).  The
translations record maps locale identifiers to translation trees in
insertion order. -/
structure I18nModule where
  nspace : String
  translations : List (String × JSONValue)

/-- One `console.warn` emission of `defineModule`: the module name, the
reference locale, the locale compared against it, and the list of
divergence descriptions joined into the printed message. -/
structure Warning where
  nspace : String
  refLocale : String
  cmpLocale : String
  errors : List String

/-- `Object.keys(v || {})` for a value of the JSON data model (object
entries, nothing for other values). -/
def objEntries : JSONValue → List (String × JSONValue)
  | .obj o => o
  | _ => []

/-- The `typeof x === "object" && x !== null && !Array.isArray(x)` test
used by `compareStructure` to decide recursion. -/
def isRecObj : JSONValue → Bool
  | .obj _ => true
  | _ => false

/-- The "extra key" loop of `compareStructure`: every key of the
comparison object absent from the reference key set is reported. -/
def extraErrors (o2 : List (String × JSONValue)) (keys1 : List String)
    (path : String) : List String :=
  o2.filterMap fun e =>
    if keys1.contains e.1 then none
    else some ("Extra key in locale: " ++ path ++ e.1)

/-- The "missing key / recurse" loop of `compareStructure`, iterating the
reference object's entries: a key absent from the comparison object is
reported missing; a key present in both whose two values are non-null,
non-array objects is recursed into with the path extended by `key.`;
any other shared key contributes nothing. -/
def compareAux : List (String × JSONValue) → List (String × JSONValue) → String → List String
  | [], _, _ => []
  | (k, v) :: rest, o2, path =>
      (if (o2.map (·.1)).contains k then
        match jsLookup o2 k with
        | some w =>
            match v, w with
            | .obj a, .obj b =>
                compareAux a b (path ++ k ++ ".") ++
                  extraErrors b (a.map (·.1)) (path ++ k ++ ".")
            | _, _ => []
        | none => []
      else ["Missing key in locale: " ++ path ++ k]) ++ compareAux rest o2 path

/-- `compareStructure(obj1, obj2, path)` of `defineModule`. -/
def compareStructure (v1 v2 : JSONValue) (path : String) : List String :=
  compareAux (objEntries v1) (objEntries v2) path ++
    extraErrors (objEntries v2) ((objEntries v1).map (·.1)) path

/-- The validation loop of `defineModule` over the locales after the
first: the first locale whose tree diverges from the reference tree
produces the single warning and the loop `break`s. -/
def firstDivergence (nspace refLoc : String) (reference : JSONValue) :
    List (String × JSONValue) → List Warning
  | [] => []
  | (loc, tree) :: rest =>
      let errors := compareStructure reference tree ""
      if errors = [] then firstDivergence nspace refLoc reference rest
      else [⟨nspace, refLoc, loc, errors⟩]

/-- `defineModule(namespace)(translations)`: when two or more locales are
supplied, the first-declared locale's tree is compared against each
subsequent locale's tree in order and at most one warning is emitted;
the module `{ namespace, translations }` is returned unconditionally. -/
def defineModule (nspace : String) (translations : List (String × JSONValue)) :
    I18nModule × List Warning :=
  let warnings :=
    match translations with
    | [] => []
    | [_] => []
    | (refLoc, reference) :: rest => firstDivergence nspace refLoc reference rest
  (⟨nspace, translations⟩, warnings)

/-- The mutable state closed over by a `createI18n` instance. -/
structure EngineState where
  currentLocale : String
  fallbackLocale : Option String
  modules : List (String × I18nModule)

/-- The `options` argument of `createI18n`. -/
structure I18nOptions where
  locale : String
  fallbackLocale : Option String
  modules : List (String × I18nModule)

/-- `createI18n(options)`: initial engine state (the modules record is
copied shallowly). -/
def createI18n (o : I18nOptions) : EngineState :=
  ⟨o.locale, o.fallbackLocale, o.modules⟩

/-- `key.indexOf(".")` / `key.slice(...)`: split at the first dot into
namespace and remainder, `none` when the key has no dot. -/
def splitKeyGo : List Char → List Char → Option (String × String)
  | _, [] => none
  | acc, c :: rest =>
      if c = '.' then some (String.mk acc.reverse, String.mk rest)
      else splitKeyGo (c :: acc) rest

def splitKey (key : String) : Option (String × String) :=
  splitKeyGo [] key.data

/-- Lines 292–299 of the source: walk the current locale's tree; if the
result is nullish and a fallback locale is configured (truthy, i.e.
nonempty) and differs from the current locale, walk the fallback
locale's tree instead. -/
def resolveValue (e : EngineState) (m : I18nModule) (tk : String) : Option JSONValue :=
  let v1 := getFromPath (jsLookup m.translations e.currentLocale) tk
  match e.fallbackLocale with
  | none => v1
  | some fb =>
      if isNullish v1 ∧ fb ≠ "" ∧ fb ≠ e.currentLocale then
        getFromPath (jsLookup m.translations fb) tk
      else v1

/-- `t(key, params?)` of the modern engine. -/
def t (e : EngineState) (key : String) (params : Option Params) : String :=
  match splitKey key with
  | none => key
  | some (ns, tk) =>
      match jsLookup e.modules ns with
      | none => key
      | some m =>
          match resolveValue e m tk with
          | some (.str s) => interpolate s params
          | none => key
          | some .null => key
          | some v => jsString v

/-- `getLocale()`. -/
def getLocale (e : EngineState) : String := e.currentLocale

/-- `setLocale(locale)`: unconditional overwrite. -/
def setLocale (e : EngineState) (locale : String) : EngineState :=
  { e with currentLocale := locale }

/-- `record[k] = v` on a JS object: an existing key keeps its position and
gets the new value, a new key is appended. -/
def jsSet {α : Type} (l : List (String × α)) (k : String) (v : α) : List (String × α) :=
  if (l.map (·.1)).contains k then
    l.map fun e => if e.1 = k then (e.1, v) else e
  else l ++ [(k, v)]

/-- `addModule(module)`: `modules[module.namespace] = module`, the engine
mutated in place (modelled by returning the updated state). -/
def addModule (e : EngineState) (m : I18nModule) : EngineState :=
  { e with modules := jsSet e.modules m.nspace m }

/-- `getLocales()`: a `Set` is filled with the locale keys of every
registered module's translations record, in iteration order. -/
def getLocales (e : EngineState) : List String :=
  e.modules.foldl
    (fun acc nm =>
      nm.2.translations.foldl
        (fun acc2 lt => if acc2.contains lt.1 then acc2 else acc2 ++ [lt.1]) acc)
    []

/-- `t(locale, key, params?)` of `createI18nLegacy`: the key is walked
directly into the given locale's tree (no namespace split, no fallback);
a nullish result yields `String(key)` = the key itself. -/
def legacyT (translations : List (String × JSONValue)) (locale key : String)
    (params : Option Params) : String :=
  match getFromPath (jsLookup translations locale) key with
  | some (.str s) => interpolate s params
  | none => key
  | some .null => key
  | some v => jsString v

/-- `localeObj(locale)` of `createI18nLegacy`: the raw tree for the
locale. -/
def localeObj (translations : List (String × JSONValue)) (locale : String) :
    Option JSONValue :=
  jsLookup translations locale

/-- No duplicate keys in an association-list level (the invariant JS
objects provide for free). -/
def nodupKeys : List String → Bool
  | [] => true
  | k :: ks => (!ks.contains k) && nodupKeys ks

mutual

/-- Well-formedness of a JSON value as the image of a JS object tree:
every object level has pairwise distinct keys. -/
def wfJSON : JSONValue → Bool
  | .obj o => nodupKeys (o.map (·.1)) && wfEntries o
  | _ => true

def wfEntries : List (String × JSONValue) → Bool
  | [] => true
  | e :: rest => wfJSON e.2 && wfEntries rest

end

/-! ## Proof auxiliaries and concrete fixtures -/

/-- Canonical run of the interpolation scanner: fuel = input length. -/
def interpRun (ps : Params) (l : List Char) : List Char :=
  interpGoF ps l.length l

mutual

/-- Size measure on JSON values, used for strong induction over the
nested tree structure. -/
def jsize : JSONValue → Nat
  | .obj o => jsizeEntries o + 1
  | _ => 0

def jsizeEntries : List (String × JSONValue) → Nat
  | [] => 0
  | e :: rest => jsize e.2 + jsizeEntries rest + 1

end

/-- A dotted path rendered from its segments. -/
def joinDots : List String → String
  | [] => ""
  | [s] => s
  | s :: rest => s ++ "." ++ joinDots rest

/-- The key path `segs` addresses an existing key in the tree: every
segment but the last resolves to a nested object, and the last segment is
a key of its parent object. -/
def pathOkB : List (String × JSONValue) → List String → Bool
  | _, [] => false
  | o, [k] => (o.map (·.1)).contains k
  | o, k :: k2 :: rest =>
      match jsLookup o k with
      | some (.obj a) => pathOkB a (k2 :: rest)
      | _ => false

/-- Remove the key addressed by the non-empty path `segs` from a tree
(entry-list form), leaving everything else unchanged. -/
def removeAtPathE : List (String × JSONValue) → List String → List (String × JSONValue)
  | o, [] => o
  | o, [k] => o.eraseP fun e => e.1 == k
  | o, k :: k2 :: rest =>
      o.map fun e =>
        if e.1 == k then
          match e.2 with
          | .obj a => (e.1, .obj (removeAtPathE a (k2 :: rest)))
          | v => (e.1, v)
        else e

def c1Module : I18nModule :=
  ⟨"common", [("en", .obj [("hello", .str "Hello")]),
              ("fr", .obj [("hello", .str "Bonjour")])]⟩

def c2Module : I18nModule :=
  ⟨"common", [("en", .obj [("hello", .str "Hello")]),
              ("fr", .obj [("hello", .str "Bonjour"), ("only", .str "Seulement")])]⟩

def c2EmptyModule : I18nModule :=
  ⟨"common", [("en", .obj []), ("", .obj [("x", .str "V")])]⟩

def c2EmptyEngine : EngineState := ⟨"en", some "", [("common", c2EmptyModule)]⟩

def c3Module : I18nModule :=
  ⟨"common", [("en", .obj [("greeting", .str "Hello {{name}}")])]⟩

def c3Engine : EngineState := ⟨"en", none, [("common", c3Module)]⟩

def c8Module : I18nModule := ⟨"settings", [("en", .obj [("theme", .str "Theme")])]⟩

def c9Trans : List (String × JSONValue) :=
  [("en", .obj [("a", .str "A {{x}}")])]

def c10Module : I18nModule :=
  ⟨"common", [("en", .obj [("nul", .null), ("count", .num 5)]),
              ("fr", .obj [("nul", .str "N")])]⟩

def c10Engine : EngineState := ⟨"en", some "fr", [("common", c10Module)]⟩

/-! ## Interpolation lemmas -/

theorem interpGoF_fuel (ps : Params) :
    ∀ f1 f2 l, l.length ≤ f1 → l.length ≤ f2 →
      interpGoF ps f1 l = interpGoF ps f2 l := by
  intro f1
  induction f1 with
  | zero =>
      intro f2 l h1 _
      have : l = [] := List.eq_nil_of_length_eq_zero (Nat.le_zero.mp h1)
      subst this
      cases f2 <;> rfl
  | succ f1 ih =>
      intro f2 l h1 h2
      match l with
      | [] => cases f2 <;> rfl
      | [c] => cases f2 <;> rfl
      | c1 :: c2 :: rest =>
          have hlen : rest.length + 2 ≤ f2 := by simpa using h2
          match f2, hlen with
          | k + 1, _ =>
            simp only [interpGoF]
            have hdrop : ∀ n m : Nat, ((rest.drop n).drop m).length ≤ rest.length := by
              intro n m
              simp only [List.length_drop]
              omega
            by_cases hc : c1 = '{' ∧ c2 = '{' ∧
                ¬ rest.takeWhile (fun d => ¬ d = '}') = [] ∧
                (rest.drop (rest.takeWhile (fun d => ¬ d = '}')).length).take 2 = ['}', '}']
            · simp only [if_pos hc]
              congr 1
              apply ih
              · calc ((rest.drop _).drop 2).length ≤ rest.length := hdrop _ _
                  _ ≤ f1 := by simp only [List.length_cons] at h1; omega
              · calc ((rest.drop _).drop 2).length ≤ rest.length := hdrop _ _
                  _ ≤ k := by simp only [List.length_cons] at h2; omega
            · simp only [if_neg hc]
              congr 1
              apply ih
              · simp only [List.length_cons] at h1 ⊢; omega
              · simp only [List.length_cons] at h2 ⊢; omega

theorem interpRun_eq (ps : Params) (f : Nat) (l : List Char) (h : l.length ≤ f) :
    interpGoF ps f l = interpRun ps l :=
  interpGoF_fuel ps f l.length l h (Nat.le_refl _)

theorem interpolate_some (ps : Params) (s : String) :
    interpolate s (some ps) = String.mk (interpRun ps s.data) := rfl

theorem interpRun_nil (ps : Params) : interpRun ps [] = [] := rfl

theorem interpRun_cons (ps : Params) (c : Char) (l : List Char) (h : c ≠ '{') :
    interpRun ps (c :: l) = c :: interpRun ps l := by
  match l with
  | [] => rfl
  | c2 :: rest =>
      show interpGoF ps (rest.length + 2) (c :: c2 :: rest) = _
      simp only [interpGoF]
      rw [if_neg (by rintro ⟨h1, -⟩; exact h h1)]
      rfl

theorem takeWhile_append_all {p : Char → Bool} :
    ∀ (l1 l2 : List Char), (∀ c ∈ l1, p c = true) →
      (l1 ++ l2).takeWhile p = l1 ++ l2.takeWhile p := by
  intro l1 l2 h
  induction l1 with
  | nil => simp
  | cons c cs ih =>
      simp [List.takeWhile_cons, h c (by simp), ih (fun d hd => h d (by simp [hd]))]

theorem interpRun_placeholder (ps : Params) (name post : List Char)
    (hne : name ≠ []) (hnb : ∀ c ∈ name, c ≠ '}') :
    interpRun ps ('{' :: '{' :: (name ++ '}' :: '}' :: post)) =
      replOf ps name ++ interpRun ps post := by
  show interpGoF ps ((name ++ '}' :: '}' :: post).length + 2) ('{' :: '{' :: (name ++ '}' :: '}' :: post)) = _
  simp only [interpGoF]
  have hrun : (name ++ '}' :: '}' :: post).takeWhile (fun d => ¬ d = '}') = name := by
    rw [takeWhile_append_all name _ (fun c hc => by simp [hnb c hc])]
    simp
  rw [hrun]
  have hdrop : (name ++ '}' :: '}' :: post).drop name.length = '}' :: '}' :: post :=
    List.drop_left name _
  rw [hdrop]
  rw [if_pos ⟨trivial, trivial, hne, rfl⟩]
  congr 1
  exact interpRun_eq ps _ post (by simp; omega)


/-! ## Claim theorems C1, C2, C3 -/

theorem interpRun_prefix_placeholder (ps : Params) :
    ∀ pre : List Char, (∀ c ∈ pre, c ≠ '{') →
      ∀ name post : List Char, name ≠ [] → (∀ c ∈ name, c ≠ '}') →
      interpRun ps (pre ++ '{' :: '{' :: (name ++ '}' :: '}' :: post)) =
        pre ++ (replOf ps name ++ interpRun ps post) := by
  intro pre
  induction pre with
  | nil =>
      intro _ name post h1 h2
      simpa using interpRun_placeholder ps name post h1 h2
  | cons c cs ih =>
      intro hpre name post h1 h2
      rw [List.cons_append, interpRun_cons ps c _ (hpre c (by simp)),
        ih (fun d hd => hpre d (by simp [hd])) name post h1 h2]
      rfl

/-- C1: `translate` echoes the key on every failure path: a key without a
dot, an unregistered namespace, or a dot-path that yields no value in the
current locale's tree nor (after the fallback retry) in the fallback
locale's tree.  `t` is a total Lean function, so no exception can be
raised. -/
theorem translate_missing_returns_key (e : EngineState) (key : String) (p : Option Params)
    (h : splitKey key = none ∨
      (∃ ns tk, splitKey key = some (ns, tk) ∧ jsLookup e.modules ns = none) ∨
      (∃ ns tk m, splitKey key = some (ns, tk) ∧ jsLookup e.modules ns = some m ∧
        getFromPath (jsLookup m.translations e.currentLocale) tk = none ∧
        ∀ fb, e.fallbackLocale = some fb →
          getFromPath (jsLookup m.translations fb) tk = none)) :
    t e key p = key := by
  rcases h with h | ⟨ns, tk, hs, hm⟩ | ⟨ns, tk, m, hs, hm, hcur, hfb⟩
  · simp [t, h]
  · simp [t, hs, hm]
  · have hres : resolveValue e m tk = none := by
      cases hfbl : e.fallbackLocale with
      | none => simp [resolveValue, hcur, hfbl]
      | some fb =>
          simp only [resolveValue, hcur, hfbl]
          split_ifs with hif
          · exact hfb fb hfbl
          · rfl
    simp [t, hs, hm, hres]

theorem translate_missing_returns_key_witness :
    t ⟨"en", some "fr", [("common", c1Module)]⟩ "common.zzz" none = "common.zzz" := by
  apply translate_missing_returns_key
  refine Or.inr (Or.inr ⟨"common", "zzz", c1Module, by decide, rfl, rfl, ?_⟩)
  intro fb hfb
  rw [(Option.some.inj hfb).symm]
  rfl

/-- C2 (amended): when a fallback locale is configured, nonempty (the
source tests `fallbackLocale &&`, so an empty-string fallback is falsy
and treated as unset) and different from the current locale, a key that
is nullish under the current locale but resolves to a string under the
fallback locale yields the fallback value, interpolated; when the
fallback locale is unset, empty, or equal to the current locale the
result is that of an engine with no fallback locale at all (no second
walk). -/
theorem translate_fallback_semantics (e : EngineState) (key : String) (p : Option Params) :
    (∀ ns tk m fb s, splitKey key = some (ns, tk) → jsLookup e.modules ns = some m →
      e.fallbackLocale = some fb → fb ≠ "" → fb ≠ e.currentLocale →
      isNullish (getFromPath (jsLookup m.translations e.currentLocale) tk) = true →
      getFromPath (jsLookup m.translations fb) tk = some (.str s) →
      t e key p = interpolate s p) ∧
    (e.fallbackLocale = none ∨ e.fallbackLocale = some e.currentLocale ∨
        e.fallbackLocale = some "" →
      t e key p = t { e with fallbackLocale := none } key p) := by
  constructor
  · intro ns tk m fb s hs hm hfb hne hneq hnull hfbv
    have hres : resolveValue e m tk = some (.str s) := by
      simp [resolveValue, hfb, hnull, hne, hneq, hfbv]
    simp [t, hs, hm, hres]
  · intro hcase
    have hres : ∀ m tk, resolveValue e m tk =
        getFromPath (jsLookup m.translations e.currentLocale) tk := by
      intro m tk
      rcases hcase with h | h | h <;> simp [resolveValue, h]
    have hres' : ∀ m tk, resolveValue { e with fallbackLocale := none } m tk =
        getFromPath (jsLookup m.translations e.currentLocale) tk := by
      intro m tk
      simp [resolveValue]
    simp only [t]
    cases hsk : splitKey key with
    | none => rfl
    | some nstk =>
        obtain ⟨ns, tk⟩ := nstk
        dsimp only
        cases hm : jsLookup e.modules ns with
        | none => rfl
        | some m =>
            dsimp only
            rw [hres m tk, hres' m tk]

theorem translate_fallback_semantics_witness :
    t ⟨"en", some "fr", [("common", c2Module)]⟩ "common.only" none = "Seulement" ∧
    t ⟨"en", some "en", [("common", c2Module)]⟩ "common.hello" none =
      t ⟨"en", none, [("common", c2Module)]⟩ "common.hello" none := by
  constructor
  · exact (translate_fallback_semantics ⟨"en", some "fr", [("common", c2Module)]⟩
      "common.only" none).1 "common" "only" c2Module "fr" "Seulement"
      (by decide) rfl rfl (by decide) (by decide) (by decide) rfl
  · exact (translate_fallback_semantics ⟨"en", some "en", [("common", c2Module)]⟩
      "common.hello" none).2 (Or.inr (Or.inl rfl))

/-- C2 counterexample: with `fallbackLocale = ""` (set, and different from
the current locale `"en"`), a key absent under the current locale that
resolves to the string `"V"` under the fallback locale is NOT translated
to `"V"`: the source's `fallbackLocale &&` test treats the empty string
as falsy, skips the second walk, and echoes the key. -/
theorem translate_fallback_empty_counterexample :
    c2EmptyEngine.fallbackLocale = some "" ∧ c2EmptyEngine.currentLocale = "en" ∧
    ("" : String) ≠ "en" ∧
    isNullish (getFromPath (jsLookup c2EmptyModule.translations "en") "x") = true ∧
    getFromPath (jsLookup c2EmptyModule.translations "") "x" = some (.str "V") ∧
    t c2EmptyEngine "common.x" none = "common.x" ∧
    ("common.x" : String) ≠ "V" :=
  ⟨rfl, rfl, by decide, by decide, rfl, by decide, by decide⟩

/-- C3 (amended): with a params record supplied, each placeholder
`{{ name }}` is replaced by the trimmed-name lookup stringified, an
absent entry becoming the empty string (`replOf`); with no params record
at all the template is returned unchanged, placeholders left literal
(`if (!params) return template`). -/
theorem interpolation_semantics :
    (∀ template : String, interpolate template none = template) ∧
    (∀ (pre name post : String) (ps : Params),
      (∀ c ∈ pre.data, c ≠ '{') → name ≠ "" → (∀ c ∈ name.data, c ≠ '}') →
      interpolate (pre ++ "\x7b\x7b" ++ name ++ "\x7d\x7d" ++ post) (some ps) =
        pre ++ String.mk (replOf ps name.data) ++ interpolate post (some ps)) := by
  refine ⟨fun _ => rfl, ?_⟩
  intro pre name post ps hpre hne hnb
  have hdata : (pre ++ "\x7b\x7b" ++ name ++ "\x7d\x7d" ++ post).data =
      pre.data ++ '{' :: '{' :: (name.data ++ '}' :: '}' :: post.data) := by
    simp [String.data_append]
  have hnn : name.data ≠ [] := by
    intro h
    exact hne (String.ext (h.trans rfl))
  rw [interpolate_some, hdata,
    interpRun_prefix_placeholder ps pre.data hpre name.data post.data hnn hnb,
    interpolate_some]
  apply String.ext
  simp [String.data_append]

/-- C3 counterexample: a key resolving to `"Hello {{name}}"`, translated
with no params argument, returns the template unchanged — the
placeholder is left literal, not replaced by the empty string as the
claim states. -/
theorem interpolation_no_params_counterexample :
    t c3Engine "common.greeting" none = "Hello {{name}}" ∧
    t c3Engine "common.greeting" none ≠ "Hello " := by
  constructor
  · decide
  · decide

theorem interpolation_semantics_witness :
    interpolate "Hello {{name}}" (some [("name", PValue.str "World")]) = "Hello World" ∧
    interpolate "Hello {{name}}" none = "Hello {{name}}" := by
  refine ⟨?_, interpolation_semantics.1 "Hello {{name}}"⟩
  have h := interpolation_semantics.2 "Hello " "name" "" [("name", PValue.str "World")]
    (by decide) (by decide) (by decide)
  rw [show ("Hello {{name}}" : String) = "Hello " ++ "\x7b\x7b" ++ "name" ++ "\x7d\x7d" ++ "" from by decide,
    h]
  decide


/-! ## Claim theorems C7, C8, C9, C10 -/

theorem getLocales_inner_foldl (trs : List (String × JSONValue)) :
    ∀ acc : List String,
      acc.Nodup →
      (trs.foldl (fun acc2 lt => if acc2.contains lt.1 then acc2 else acc2 ++ [lt.1]) acc).Nodup ∧
      ∀ l, l ∈ trs.foldl (fun acc2 lt => if acc2.contains lt.1 then acc2 else acc2 ++ [lt.1]) acc ↔
        (l ∈ acc ∨ ∃ tree, (l, tree) ∈ trs) := by
  induction trs with
  | nil => intro acc h; simpa using h
  | cons e rest ih =>
      obtain ⟨k, v⟩ := e
      intro acc h
      by_cases hc : acc.contains k
      · have hrec := ih acc h
        simp only [List.foldl_cons, if_pos hc]
        refine ⟨hrec.1, fun l => ?_⟩
        rw [hrec.2 l]
        constructor
        · rintro (hl | ⟨tree, ht⟩)
          · exact Or.inl hl
          · exact Or.inr ⟨tree, by simp [ht]⟩
        · rintro (hl | ⟨tree, ht⟩)
          · exact Or.inl hl
          · rcases (by simpa using ht) with ⟨h1, _⟩ | h1
            · subst h1
              exact Or.inl (by simpa using hc)
            · exact Or.inr ⟨tree, h1⟩
      · have hnd : (acc ++ [k]).Nodup := by
          simp [List.nodup_append, h]
          intro ha
          exact hc (by simpa using ha)
        have hrec := ih (acc ++ [k]) hnd
        simp only [List.foldl_cons, if_neg hc]
        refine ⟨hrec.1, fun l => ?_⟩
        rw [hrec.2 l]
        constructor
        · rintro (hl | ⟨tree, ht⟩)
          · rcases (by simpa using hl) with h1 | h1
            · exact Or.inl h1
            · exact Or.inr ⟨v, by simp [h1]⟩
          · exact Or.inr ⟨tree, by simp [ht]⟩
        · rintro (hl | ⟨tree, ht⟩)
          · exact Or.inl (by simp [hl])
          · rcases (by simpa using ht) with ⟨h1, _⟩ | h1
            · exact Or.inl (by simp [h1])
            · exact Or.inr ⟨tree, h1⟩

theorem getLocales_outer_foldl (mods : List (String × I18nModule)) :
    ∀ acc : List String,
      acc.Nodup →
      (mods.foldl (fun a nm => nm.2.translations.foldl
          (fun acc2 lt => if acc2.contains lt.1 then acc2 else acc2 ++ [lt.1]) a) acc).Nodup ∧
      ∀ l, l ∈ mods.foldl (fun a nm => nm.2.translations.foldl
          (fun acc2 lt => if acc2.contains lt.1 then acc2 else acc2 ++ [lt.1]) a) acc ↔
        (l ∈ acc ∨ ∃ ns m, (ns, m) ∈ mods ∧ ∃ tree, (l, tree) ∈ m.translations) := by
  induction mods with
  | nil => intro acc h; simpa using h
  | cons nm rest ih =>
      obtain ⟨mns, mm⟩ := nm
      intro acc h
      have hinner := getLocales_inner_foldl mm.translations acc h
      have houter := ih _ hinner.1
      simp only [List.foldl_cons]
      refine ⟨houter.1, fun l => ?_⟩
      rw [houter.2 l, hinner.2 l]
      constructor
      · rintro ((hl | ⟨tree, ht⟩) | ⟨ns, m, hm, tree, ht⟩)
        · exact Or.inl hl
        · exact Or.inr ⟨mns, mm, by simp, tree, ht⟩
        · exact Or.inr ⟨ns, m, by simp [hm], tree, ht⟩
      · rintro (hl | ⟨ns, m, hm, tree, ht⟩)
        · exact Or.inl (Or.inl hl)
        · rcases (by simpa using hm) with ⟨h1, h2⟩ | h1
          · subst h2
            exact Or.inl (Or.inr ⟨tree, ht⟩)
          · exact Or.inr ⟨ns, m, h1, tree, ht⟩

/-- C7: `getLocales()` returns exactly the deduplicated union of the
locale identifiers across all registered modules' translations records:
the result has no duplicates and contains a locale iff some registered
module's translations record has it as a key. -/
theorem getLocales_union (e : EngineState) :
    (getLocales e).Nodup ∧
    ∀ l, l ∈ getLocales e ↔
      ∃ ns m, (ns, m) ∈ e.modules ∧ ∃ tree, (l, tree) ∈ m.translations := by
  have h := getLocales_outer_foldl e.modules [] (by simp)
  exact ⟨h.1, fun l => by simpa only [List.not_mem_nil, false_or] using h.2 l⟩


/-! ## Association-list lemmas -/

theorem jsLookup_of_mem {α : Type} :
    ∀ (l : List (String × α)) (k : String) (v : α),
      nodupKeys (l.map (·.1)) = true → (k, v) ∈ l → jsLookup l k = some v := by
  intro l
  induction l with
  | nil => intro k v _ hm; simp at hm
  | cons e rest ih =>
      obtain ⟨k0, v0⟩ := e
      intro k v hnd hm
      have hnd' : ((rest.map (·.1)).contains k0 = false) ∧
          nodupKeys (rest.map (·.1)) = true := by
        simpa [nodupKeys] using hnd
      rcases (by simpa using hm) with ⟨h1, h2⟩ | h1
      · subst h1; subst h2
        simp [jsLookup]
      · by_cases hk : k0 = k
        · subst hk
          have hmem : k0 ∈ rest.map (·.1) := List.mem_map.mpr ⟨(k0, v), h1, rfl⟩
          have hcon : (rest.map (·.1)).contains k0 = true := List.elem_iff.mpr hmem
          rw [hnd'.1] at hcon
          exact Bool.noConfusion hcon
        · simp only [jsLookup, if_neg hk]
          exact ih k v hnd'.2 h1

theorem jsLookup_map_set {α : Type} (k : String) (v : α) :
    ∀ l : List (String × α),
      jsLookup (l.map fun e => if e.1 = k then (e.1, v) else e) k =
        (jsLookup l k).map fun _ => v := by
  intro l
  induction l with
  | nil => rfl
  | cons e rest ih =>
      obtain ⟨k0, v0⟩ := e
      simp only [List.map_cons]
      by_cases h : k0 = k
      · subst h
        rw [if_pos rfl]
        simp [jsLookup]
      · rw [if_neg h]
        simp only [jsLookup, if_neg h, ih]

theorem jsLookup_append_right {α : Type} (k : String) :
    ∀ l1 l2 : List (String × α), jsLookup l1 k = none →
      jsLookup (l1 ++ l2) k = jsLookup l2 k := by
  intro l1 l2
  induction l1 with
  | nil => intro _; rfl
  | cons e rest ih =>
      obtain ⟨k0, v0⟩ := e
      intro h
      by_cases hk : k0 = k
      · rw [jsLookup, if_pos hk] at h
        exact Option.noConfusion h
      · rw [jsLookup, if_neg hk] at h
        rw [List.cons_append, jsLookup, if_neg hk]
        exact ih h

theorem contains_eq_isSome_jsLookup {α : Type} (k : String) :
    ∀ l : List (String × α), (l.map (·.1)).contains k = (jsLookup l k).isSome := by
  intro l
  induction l with
  | nil => rfl
  | cons e rest ih =>
      obtain ⟨k0, v0⟩ := e
      by_cases h : k0 = k
      · subst h
        simp [jsLookup]
      · have hne : (k == k0) = false := beq_eq_false_iff_ne.mpr (Ne.symm h)
        simp only [List.map_cons, List.contains_cons, hne, Bool.false_or, jsLookup,
          if_neg h, ih]

theorem jsLookup_jsSet {α : Type} (l : List (String × α)) (k : String) (v : α) :
    jsLookup (jsSet l k v) k = some v := by
  unfold jsSet
  by_cases hc : ((l.map (·.1)).contains k) = true
  · rw [if_pos hc, jsLookup_map_set]
    rw [contains_eq_isSome_jsLookup] at hc
    cases h : jsLookup l k with
    | none => rw [h] at hc; simp at hc
    | some w => rfl
  · rw [if_neg hc]
    rw [contains_eq_isSome_jsLookup] at hc
    have hnone : jsLookup l k = none := by
      cases h : jsLookup l k with
      | none => rfl
      | some w => rw [h] at hc; simp at hc
    rw [jsLookup_append_right k l [(k, v)] hnone]
    simp [jsLookup]

theorem jsSet_jsSet_same {α : Type} (l : List (String × α)) (k : String) (v : α) :
    jsSet (jsSet l k v) k v = jsSet l k v := by
  unfold jsSet
  by_cases hc : ((l.map (·.1)).contains k) = true
  · rw [if_pos hc]
    have hkeys : ((l.map fun e => if e.1 = k then (e.1, v) else e).map (·.1)) = l.map (·.1) := by
      rw [List.map_map]
      apply List.map_congr_left
      intro e _
      by_cases h : e.1 = k <;> simp [h]
    rw [if_pos (by rw [hkeys]; exact hc), List.map_map]
    apply List.map_congr_left
    intro e _
    by_cases h : e.1 = k <;> simp [h]
  · rw [if_neg hc]
    have hcc : (((l ++ [(k, v)]).map (·.1)).contains k) = true := by
      simp [List.elem_iff]
    rw [if_pos hcc, List.map_append]
    have hnotin : k ∉ l.map (·.1) := by
      intro h
      exact hc (List.elem_iff.mpr h)
    have hl : (l.map fun e => if e.1 = k then (e.1, v) else e) = l := by
      conv_rhs => rw [← List.map_id l]
      apply List.map_congr_left
      intro e he
      have hek : e.1 ≠ k := fun h => hnotin (h ▸ List.mem_map.mpr ⟨e, he, rfl⟩)
      simp [hek]
    rw [hl]
    simp


/-- C8: registering the same namespace twice with identical translation
data is idempotent: the engine state after the second `addModule` equals
the state after the first, so `t` is unchanged on every key; and the
registration always wins the namespace slot (`modules[namespace] =
module`, last registration wins). -/
theorem addModule_idempotent (e : EngineState) (m1 m2 : I18nModule)
    (hns : m1.nspace = m2.nspace) (htr : m1.translations = m2.translations) :
    addModule (addModule e m1) m2 = addModule e m1 ∧
    (∀ key p, t (addModule (addModule e m1) m2) key p = t (addModule e m1) key p) ∧
    jsLookup (addModule e m2).modules m2.nspace = some m2 := by
  have hm : m1 = m2 := by
    cases m1; cases m2
    simp_all
  subst hm
  have hstate : addModule (addModule e m1) m1 = addModule e m1 := by
    simp [addModule, jsSet_jsSet_same]
  exact ⟨hstate, fun key p => by rw [hstate], by simp [addModule, jsLookup_jsSet]⟩

theorem addModule_idempotent_witness :
    addModule (addModule ⟨"en", none, []⟩ c8Module) c8Module =
      addModule ⟨"en", none, []⟩ c8Module ∧
    t (addModule (addModule ⟨"en", none, []⟩ c8Module) c8Module) "settings.theme" none =
      t (addModule ⟨"en", none, []⟩ c8Module) "settings.theme" none ∧
    jsLookup (addModule ⟨"en", none, []⟩ c8Module).modules "settings" = some c8Module := by
  have h := addModule_idempotent ⟨"en", none, []⟩ c8Module c8Module rfl rfl
  exact ⟨h.1, h.2.1 "settings.theme" none, h.2.2⟩

/-- C9: the legacy engine's `t(locale, key, params?)` addresses the key
directly in the chosen locale's tree: a nullish resolution returns the
key itself (`String(key)`), a string resolution is interpolated, and the
result depends only on the chosen locale's tree (no fallback-locale
retry, no other locale is consulted); `localeObj(locale)` returns the
raw translation tree registered for the locale. -/
theorem legacy_engine_semantics (trs trs2 : List (String × JSONValue))
    (locale key : String) (p : Option Params) :
    (isNullish (getFromPath (jsLookup trs locale) key) = true →
      legacyT trs locale key p = key) ∧
    (∀ s, getFromPath (jsLookup trs locale) key = some (.str s) →
      legacyT trs locale key p = interpolate s p) ∧
    (jsLookup trs locale = jsLookup trs2 locale →
      legacyT trs locale key p = legacyT trs2 locale key p) ∧
    (∀ tree, nodupKeys (trs.map (·.1)) = true → (locale, tree) ∈ trs →
      localeObj trs locale = some tree) := by
  refine ⟨?_, ?_, ?_, ?_⟩
  · intro h
    cases hg : getFromPath (jsLookup trs locale) key with
    | none => simp [legacyT, hg]
    | some v =>
        rw [hg] at h
        cases v with
        | null => simp [legacyT, hg]
        | str s => simp [isNullish] at h
        | num n => simp [isNullish] at h
        | bool b => simp [isNullish] at h
        | obj o => simp [isNullish] at h
        | arr a => simp [isNullish] at h
  · intro s h
    simp [legacyT, h]
  · intro h
    simp [legacyT, h]
  · intro tree hnd hmem
    exact jsLookup_of_mem trs locale tree hnd hmem

theorem legacy_engine_semantics_witness :
    legacyT c9Trans "en" "zz" none = "zz" ∧
    legacyT c9Trans "en" "a" (some [("x", PValue.str "B")]) = "A B" ∧
    localeObj c9Trans "en" = some (.obj [("a", .str "A {{x}}")]) := by
  refine ⟨?_, ?_, ?_⟩
  · exact (legacy_engine_semantics c9Trans c9Trans "en" "zz" none).1 (by decide)
  · exact ((legacy_engine_semantics c9Trans c9Trans "en" "a"
      (some [("x", PValue.str "B")])).2.1 "A {{x}}" rfl).trans (by decide)
  · exact (legacy_engine_semantics c9Trans c9Trans "en" "a" none).2.2.2
      (.obj [("a", .str "A {{x}}")]) (by decide) (by simp [c9Trans])

/-- C10: a JSON `null` leaf under the current locale is treated exactly
like not-found: the fallback locale is consulted, a string found there is
interpolated and returned; if the resolution (after fallback) is still
nullish the original key is returned — never the string `"null"` — while
a found non-null, non-string value is stringified with `String(...)`. -/
theorem translate_null_leaf (e : EngineState) (key ns tk : String) (m : I18nModule)
    (p : Option Params)
    (hs : splitKey key = some (ns, tk)) (hm : jsLookup e.modules ns = some m) :
    (∀ fb, e.fallbackLocale = some fb → fb ≠ "" → fb ≠ e.currentLocale →
      getFromPath (jsLookup m.translations e.currentLocale) tk = some .null →
      ∀ s, getFromPath (jsLookup m.translations fb) tk = some (.str s) →
        t e key p = interpolate s p) ∧
    (isNullish (resolveValue e m tk) = true → t e key p = key) ∧
    (∀ v, resolveValue e m tk = some v → isNullish (some v) = false →
      (∀ s, v ≠ .str s) → t e key p = jsString v) := by
  refine ⟨?_, ?_, ?_⟩
  · intro fb hfb hne hneq hnull s hfbv
    have hres : resolveValue e m tk = some (.str s) := by
      simp [resolveValue, hfb, hnull, hne, hneq, hfbv, isNullish]
    simp [t, hs, hm, hres]
  · intro h
    cases hres : resolveValue e m tk with
    | none => simp [t, hs, hm, hres]
    | some v =>
        rw [hres] at h
        cases v with
        | null => simp [t, hs, hm, hres]
        | str s => simp [isNullish] at h
        | num n => simp [isNullish] at h
        | bool b => simp [isNullish] at h
        | obj o => simp [isNullish] at h
        | arr a => simp [isNullish] at h
  · intro v hres hnn hnstr
    cases v with
    | null => simp [isNullish] at hnn
    | str s => exact absurd rfl (hnstr s)
    | num n => simp [t, hs, hm, hres]
    | bool b => simp [t, hs, hm, hres]
    | obj o => simp [t, hs, hm, hres]
    | arr a => simp [t, hs, hm, hres]

theorem translate_null_leaf_witness :
    t c10Engine "common.nul" none = "N" ∧
    t ⟨"en", none, [("common", c10Module)]⟩ "common.nul" none = "common.nul" ∧
    t c10Engine "common.count" none = jsString (.num 5) := by
  refine ⟨?_, ?_, ?_⟩
  · exact ((translate_null_leaf c10Engine "common.nul" "common" "nul" c10Module none
      (by decide) rfl).1 "fr" rfl (by decide) (by decide) rfl "N" rfl).trans rfl
  · exact (translate_null_leaf ⟨"en", none, [("common", c10Module)]⟩ "common.nul"
      "common" "nul" c10Module none (by decide) rfl).2.1 (by decide)
  · exact (translate_null_leaf c10Engine "common.count" "common" "count" c10Module none
      (by decide) rfl).2.2 (.num 5) rfl (by decide)
      (fun s h => JSONValue.noConfusion h)


/-! ## Structural-validator machinery for C4, C5, C6 -/

theorem jsizeEntries_lt_of_mem :
    ∀ (o : List (String × JSONValue)) (k : String) (a : List (String × JSONValue)),
      (k, .obj a) ∈ o → jsizeEntries a < jsizeEntries o := by
  intro o k a hm
  induction o with
  | nil => simp at hm
  | cons e rest ih =>
      rcases (by simpa using hm) with h1 | h1
      · rw [show e = (k, .obj a) from h1.symm]
        simp only [jsizeEntries, jsize]
        omega
      · have := ih h1
        simp only [jsizeEntries]
        omega

theorem jsLookup_mem {α : Type} :
    ∀ (l : List (String × α)) (k : String) (v : α),
      jsLookup l k = some v → (k, v) ∈ l := by
  intro l k v h
  induction l with
  | nil => simp [jsLookup] at h
  | cons e rest ih =>
      obtain ⟨k0, v0⟩ := e
      by_cases hk : k0 = k
      · subst hk
        rw [jsLookup, if_pos rfl] at h
        simp [Option.some.inj h]
      · rw [jsLookup, if_neg hk] at h
        simp [ih h]

theorem contains_of_jsLookup {α : Type} (l : List (String × α)) (k : String) (v : α)
    (h : jsLookup l k = some v) : (l.map (·.1)).contains k = true := by
  rw [contains_eq_isSome_jsLookup, h]
  rfl

theorem jsLookup_eraseP_ne {α : Type} (k k' : String) (hne : k' ≠ k) :
    ∀ l : List (String × α),
      jsLookup (l.eraseP fun e => e.1 == k) k' = jsLookup l k' := by
  intro l
  induction l with
  | nil => rfl
  | cons e rest ih =>
      obtain ⟨k0, v0⟩ := e
      by_cases hk : k0 = k
      · subst hk
        rw [List.eraseP_cons, show (((k0, v0).1 == k0) : Bool) = true from by simp]
        simp only [cond_true]
        rw [jsLookup, if_neg (fun h => hne h.symm)]
      · rw [List.eraseP_cons, show (((k0, v0).1 == k) : Bool) = false from by simpa using hk]
        simp only [cond_false]
        by_cases hk' : k0 = k'
        · rw [jsLookup, if_pos hk', jsLookup, if_pos hk']
        · rw [jsLookup, if_neg hk', jsLookup, if_neg hk', ih]

theorem contains_eraseP_ne {α : Type} (k k' : String) (hne : k' ≠ k)
    (l : List (String × α)) :
    ((l.eraseP fun e => e.1 == k).map (·.1)).contains k' = (l.map (·.1)).contains k' := by
  rw [contains_eq_isSome_jsLookup, contains_eq_isSome_jsLookup, jsLookup_eraseP_ne k k' hne]

/-- No "extra key" reports when every key of the compared object occurs
in the reference key set. -/
theorem extraErrors_of_subset (path : String) :
    ∀ (x : List (String × JSONValue)) (ks : List String),
      (∀ e ∈ x, (ks.contains e.1) = true) → extraErrors x ks path = [] := by
  intro x ks h
  induction x with
  | nil => rfl
  | cons e rest ih =>
      simp only [extraErrors, List.filterMap_cons, h e (by simp)]
      exact ih fun e' he' => h e' (by simp [he'])


theorem wfJSON_of_mem :
    ∀ (o : List (String × JSONValue)), wfEntries o = true →
      ∀ e ∈ o, wfJSON e.2 = true := by
  intro o hwf e he
  induction o with
  | nil => simp at he
  | cons e0 rest ih =>
      have h' : wfJSON e0.2 = true ∧ wfEntries rest = true := by
        simpa [wfEntries] using hwf
      rcases (by simpa using he) with h1 | h1
      · rw [h1]; exact h'.1
      · exact ih h'.2 h1

theorem nodupKeys_entries (o : List (String × JSONValue))
    (hnd : nodupKeys (o.map (·.1)) = true) :
    ∀ k v, (k, v) ∈ o → jsLookup o k = some v :=
  fun k v hm => jsLookup_of_mem o k v hnd hm

theorem compareAux_self_eq_nil :
    ∀ (n : Nat) (o : List (String × JSONValue)), jsizeEntries o ≤ n →
      ∀ (o2 : List (String × JSONValue)) (path : String),
        wfEntries o = true → (∀ k v, (k, v) ∈ o → jsLookup o2 k = some v) →
        compareAux o o2 path = [] := by
  intro n
  induction n with
  | zero =>
      intro o hsz o2 path _ _
      cases o with
      | nil => simp [compareAux]
      | cons e rest => simp only [jsizeEntries] at hsz; omega
  | succ n ih =>
      intro o hsz o2 path hwf hlk
      cases o with
      | nil => simp [compareAux]
      | cons e rest =>
          obtain ⟨k, v⟩ := e
          have hlkk : jsLookup o2 k = some v := hlk k v (by simp)
          have hcon : ((o2.map (·.1)).contains k) = true := contains_of_jsLookup _ _ _ hlkk
          have hwf' : wfJSON v = true ∧ wfEntries rest = true := by
            simpa [wfEntries] using hwf
          have hsz' : jsizeEntries rest ≤ n := by
            simp only [jsizeEntries] at hsz; omega
          have hrest : compareAux rest o2 path = [] :=
            ih rest hsz' o2 path hwf'.2 (fun k' v' hm => hlk k' v' (by simp [hm]))
          simp only [compareAux, hcon, if_true, hlkk, hrest, List.append_nil]
          cases v with
          | obj a =>
              have hnda : nodupKeys (a.map (·.1)) = true ∧ wfEntries a = true := by
                simpa [wfJSON] using hwf'.1
              have hsza : jsizeEntries a ≤ n := by
                simp only [jsizeEntries, jsize] at hsz; omega
              show compareAux a a (path ++ k ++ ".") ++
                extraErrors a (a.map (·.1)) (path ++ k ++ ".") = []
              rw [ih a hsza a (path ++ k ++ ".") hnda.2 (nodupKeys_entries a hnda.1)]
              rw [extraErrors_of_subset _ a (a.map (·.1))
                (fun e he => List.elem_iff.mpr (List.mem_map.mpr ⟨e, he, rfl⟩))]
              rfl
          | str s => rfl
          | num m => rfl
          | bool b => rfl
          | null => rfl
          | arr xs => rfl

/-- Self-comparison of a well-formed tree reports nothing. -/
theorem compareStructure_self (v : JSONValue) (path : String)
    (hwf : wfJSON v = true) : compareStructure v v path = [] := by
  cases v with
  | obj o =>
      have h : nodupKeys (o.map (·.1)) = true ∧ wfEntries o = true := by
        simpa [wfJSON] using hwf
      simp only [compareStructure, objEntries]
      rw [compareAux_self_eq_nil (jsizeEntries o) o (Nat.le_refl _) o path h.2
        (nodupKeys_entries o h.1)]
      rw [extraErrors_of_subset _ o (o.map (·.1))
        (fun e he => List.elem_iff.mpr (List.mem_map.mpr ⟨e, he, rfl⟩))]
      rfl
  | str s => simp [compareStructure, objEntries, compareAux, extraErrors]
  | num n => simp [compareStructure, objEntries, compareAux, extraErrors]
  | bool b => simp [compareStructure, objEntries, compareAux, extraErrors]
  | null => simp [compareStructure, objEntries, compareAux, extraErrors]
  | arr xs => simp [compareStructure, objEntries, compareAux, extraErrors]

theorem compareAux_cons_irrelevant (k0 : String) (v0 : JSONValue) :
    ∀ (x y : List (String × JSONValue)) (path : String),
      (∀ e ∈ x, e.1 ≠ k0) →
      compareAux x ((k0, v0) :: y) path = compareAux x y path := by
  intro x
  induction x with
  | nil => intro y path _; simp [compareAux]
  | cons e rest ih =>
      obtain ⟨k, v⟩ := e
      intro y path hx
      have hk : k ≠ k0 := hx (k, v) (by simp)
      have hcon : ((((k0, v0) :: y).map (·.1)).contains k) = ((y.map (·.1)).contains k) := by
        simp only [List.map_cons, List.contains_cons,
          show ((k == k0) : Bool) = false from beq_eq_false_iff_ne.mpr hk, Bool.false_or]
      have hlk : jsLookup ((k0, v0) :: y) k = jsLookup y k := by
        rw [jsLookup, if_neg (fun h => hk h.symm)]
      simp only [compareAux, hcon, hlk, ih y path (fun e he => hx e (by simp [he]))]

theorem map_modify_id (k : String) (f : JSONValue → JSONValue) :
    ∀ (x : List (String × JSONValue)), (∀ e ∈ x, e.1 ≠ k) →
      (x.map fun e => if e.1 == k then (e.1, f e.2) else e) = x := by
  intro x hx
  induction x with
  | nil => rfl
  | cons e rest ih =>
      simp only [List.map_cons,
        show ((e.1 == k) : Bool) = false from beq_eq_false_iff_ne.mpr (hx e (by simp)),
        Bool.false_eq_true, if_false]
      rw [ih (fun e' he' => hx e' (by simp [he']))]

theorem jsLookup_map_modify_ne (k k' : String) (hne : k' ≠ k) (f : JSONValue → JSONValue) :
    ∀ (o : List (String × JSONValue)),
      jsLookup (o.map fun e => if e.1 == k then (e.1, f e.2) else e) k' = jsLookup o k' := by
  intro o
  induction o with
  | nil => rfl
  | cons e rest ih =>
      obtain ⟨k0, v0⟩ := e
      simp only [List.map_cons]
      by_cases hk : k0 = k
      · subst hk
        rw [show (((k0, v0).1 == k0) : Bool) = true from by simp]
        simp only [if_true]
        rw [jsLookup, if_neg (fun h => hne h.symm), jsLookup, if_neg (fun h => hne h.symm), ih]
      · rw [show (((k0, v0).1 == k) : Bool) = false from beq_eq_false_iff_ne.mpr hk]
        simp only [Bool.false_eq_true, if_false]
        by_cases hk' : k0 = k'
        · rw [jsLookup, if_pos hk', jsLookup, if_pos hk']
        · rw [jsLookup, if_neg hk', jsLookup, if_neg hk', ih]

theorem keys_map_modify (k : String) (f : JSONValue → JSONValue)
    (o : List (String × JSONValue)) :
    ((o.map fun e => if e.1 == k then (e.1, f e.2) else e).map (·.1)) = o.map (·.1) := by
  rw [List.map_map]
  apply List.map_congr_left
  intro e _
  by_cases h : e.1 = k
  · simp [h]
  · simp [h]


theorem compareAux_erase_self (path : String) :
    ∀ (o : List (String × JSONValue)) (k : String),
      wfEntries o = true → nodupKeys (o.map (·.1)) = true →
      ((o.map (·.1)).contains k) = true →
      compareAux o (o.eraseP fun e => e.1 == k) path =
        ["Missing key in locale: " ++ path ++ k] := by
  intro o
  induction o with
  | nil => intro k _ _ hcon; simp at hcon
  | cons e rest ih =>
      obtain ⟨k0, v0⟩ := e
      intro k hwf hnd hcon
      have hwf' : wfJSON v0 = true ∧ wfEntries rest = true := by
        simpa [wfEntries] using hwf
      have hnd' : ((rest.map (·.1)).contains k0 = false) ∧
          nodupKeys (rest.map (·.1)) = true := by
        simpa [nodupKeys] using hnd
      by_cases hk : k0 = k
      · subst hk
        rw [show (((k0, v0) :: rest).eraseP fun e => e.1 == k0) = rest from by
          simp [List.eraseP_cons]]
        have hconrest : ((rest.map (·.1)).contains k0) = false := hnd'.1
        simp only [compareAux, hconrest, Bool.false_eq_true, if_false]
        rw [compareAux_self_eq_nil (jsizeEntries rest) rest (Nat.le_refl _) rest path
          hwf'.2 (nodupKeys_entries rest hnd'.2)]
        simp
      · rw [show (((k0, v0) :: rest).eraseP fun e => e.1 == k) =
            (k0, v0) :: rest.eraseP (fun e => e.1 == k) from by
          simp [List.eraseP_cons, beq_eq_false_iff_ne.mpr hk]]
        have hconk : ((rest.map (·.1)).contains k) = true := by
          rcases (by simpa using hcon) with h1 | h1
          · exact absurd h1.symm hk
          · obtain ⟨x, hx⟩ := h1
            exact List.elem_iff.mpr (List.mem_map.mpr ⟨(k, x), hx, rfl⟩)
        have hcon0 : ((((k0, v0) :: rest.eraseP fun e => e.1 == k).map (·.1)).contains k0)
            = true := by
          simp [List.contains_cons]
        have hlk0 : jsLookup ((k0, v0) :: rest.eraseP fun e => e.1 == k) k0 = some v0 := by
          rw [jsLookup, if_pos rfl]
        simp only [compareAux, hcon0, if_true, hlk0]
        rw [compareAux_cons_irrelevant k0 v0 rest _ path
          (fun e he => fun h => by
            have hmem : k0 ∈ rest.map (·.1) := by
              rw [← h]
              exact List.mem_map.mpr ⟨e, he, rfl⟩
            have hc : ((rest.map (·.1)).contains k0) = true := List.elem_iff.mpr hmem
            rw [hnd'.1] at hc
            exact Bool.noConfusion hc)]
        rw [ih k hwf'.2 hnd'.2 hconk]
        cases v0 with
        | obj a =>
            have hnda : nodupKeys (a.map (·.1)) = true ∧ wfEntries a = true := by
              simpa [wfJSON] using hwf'.1
            show (compareAux a a (path ++ k0 ++ ".") ++
              extraErrors a (a.map (·.1)) (path ++ k0 ++ ".")) ++ _ = _
            rw [compareAux_self_eq_nil (jsizeEntries a) a (Nat.le_refl _) a _
              hnda.2 (nodupKeys_entries a hnda.1)]
            rw [extraErrors_of_subset _ a (a.map (·.1))
              (fun e he => List.elem_iff.mpr (List.mem_map.mpr ⟨e, he, rfl⟩))]
            rfl
        | str s => rfl
        | num n => rfl
        | bool b => rfl
        | null => rfl
        | arr xs => rfl


theorem compareAux_modify (k : String) (f : JSONValue → JSONValue) (path : String) :
    ∀ (o a b : List (String × JSONValue)),
      wfEntries o = true → nodupKeys (o.map (·.1)) = true →
      jsLookup o k = some (.obj a) → f (.obj a) = .obj b →
      compareAux o (o.map fun e => if e.1 == k then (e.1, f e.2) else e) path =
        compareAux a b (path ++ k ++ ".") ++
          extraErrors b (a.map (·.1)) (path ++ k ++ ".") := by
  intro o
  induction o with
  | nil => intro a b _ _ hlk _; simp [jsLookup] at hlk
  | cons e rest ih =>
      obtain ⟨k0, v0⟩ := e
      intro a b hwf hnd hlk hfb
      have hwf' : wfJSON v0 = true ∧ wfEntries rest = true := by
        simpa [wfEntries] using hwf
      have hnd' : ((rest.map (·.1)).contains k0 = false) ∧
          nodupKeys (rest.map (·.1)) = true := by
        simpa [nodupKeys] using hnd
      have hrestkeys : ∀ e ∈ rest, e.1 ≠ k0 := by
        intro e he h
        have hmem : k0 ∈ rest.map (·.1) := by
          rw [← h]
          exact List.mem_map.mpr ⟨e, he, rfl⟩
        have hc : ((rest.map (·.1)).contains k0) = true := List.elem_iff.mpr hmem
        rw [hnd'.1] at hc
        exact Bool.noConfusion hc
      by_cases hk : k0 = k
      · subst hk
        have hv0 : v0 = .obj a := by
          rw [jsLookup, if_pos rfl] at hlk
          exact Option.some.inj hlk
        subst hv0
        have hrestid : (rest.map fun e => if e.1 == k0 then (e.1, f e.2) else e) = rest :=
          map_modify_id k0 f rest hrestkeys
        simp only [List.map_cons, show (((k0, JSONValue.obj a).1 == k0) : Bool) = true from
          by simp, if_true, hrestid, hfb]
        have hcon0 : ((((k0, JSONValue.obj b) :: rest).map (·.1)).contains k0) = true := by
          simp
        have hlk0 : jsLookup ((k0, JSONValue.obj b) :: rest) k0 = some (.obj b) := by
          rw [jsLookup, if_pos rfl]
        simp only [compareAux, hcon0, if_true, hlk0]
        rw [compareAux_cons_irrelevant k0 (.obj b) rest rest path hrestkeys]
        rw [compareAux_self_eq_nil (jsizeEntries rest) rest (Nat.le_refl _) rest path
          hwf'.2 (nodupKeys_entries rest hnd'.2)]
        simp
      · have hlkrest : jsLookup rest k = some (.obj a) := by
          rw [jsLookup, if_neg hk] at hlk
          exact hlk
        simp only [List.map_cons,
          show (((k0, v0).1 == k) : Bool) = false from beq_eq_false_iff_ne.mpr hk,
          Bool.false_eq_true, if_false]
        have hcon0 : ((((k0, v0) :: rest.map fun e =>
            if e.1 == k then (e.1, f e.2) else e).map (·.1)).contains k0) = true := by
          simp
        have hlk0 : jsLookup ((k0, v0) :: rest.map fun e =>
            if e.1 == k then (e.1, f e.2) else e) k0 = some v0 := by
          rw [jsLookup, if_pos rfl]
        simp only [compareAux, hcon0, if_true, hlk0]
        rw [compareAux_cons_irrelevant k0 v0 rest _ path hrestkeys]
        rw [ih a b hwf'.2 hnd'.2 hlkrest hfb]
        have hcontrib : (match v0, v0 with
            | JSONValue.obj a1, JSONValue.obj b1 =>
                compareAux a1 b1 (path ++ k0 ++ ".") ++
                  extraErrors b1 (a1.map (·.1)) (path ++ k0 ++ ".")
            | _, _ => ([] : List String)) = [] := by
          cases v0 with
          | obj a0 =>
              have hnda : nodupKeys (a0.map (·.1)) = true ∧ wfEntries a0 = true := by
                simpa [wfJSON] using hwf'.1
              show compareAux a0 a0 (path ++ k0 ++ ".") ++
                extraErrors a0 (a0.map (·.1)) (path ++ k0 ++ ".") = []
              rw [compareAux_self_eq_nil (jsizeEntries a0) a0 (Nat.le_refl _) a0 _
                hnda.2 (nodupKeys_entries a0 hnda.1)]
              rw [extraErrors_of_subset _ a0 (a0.map (·.1))
                (fun e he => List.elem_iff.mpr (List.mem_map.mpr ⟨e, he, rfl⟩))]
              rfl
          | str s => rfl
          | num n => rfl
          | bool bb => rfl
          | null => rfl
          | arr xs => rfl
        rw [hcontrib]
        rfl


theorem compareStructure_removeAtPath :
    ∀ (segs : List String) (o : List (String × JSONValue)) (path : String),
      wfJSON (.obj o) = true → pathOkB o segs = true →
      compareStructure (.obj o) (.obj (removeAtPathE o segs)) path =
        ["Missing key in locale: " ++ path ++ joinDots segs] := by
  intro segs
  induction segs with
  | nil => intro o path _ hp; simp [pathOkB] at hp
  | cons k rest ih =>
      intro o path hwf hp
      have hw : nodupKeys (o.map (·.1)) = true ∧ wfEntries o = true := by
        simpa [wfJSON] using hwf
      cases rest with
      | nil =>
          have hcon : ((o.map (·.1)).contains k) = true := by
            simpa [pathOkB] using hp
          simp only [removeAtPathE, compareStructure, objEntries]
          rw [compareAux_erase_self path o k hw.2 hw.1 hcon]
          rw [extraErrors_of_subset path (o.eraseP fun e => e.1 == k) (o.map (·.1))
            (fun e he => List.elem_iff.mpr
              (List.mem_map.mpr ⟨e, List.mem_of_mem_eraseP he, rfl⟩))]
          simp [joinDots]
      | cons k2 rest2 =>
          cases hlk : jsLookup o k with
          | none => simp [pathOkB, hlk] at hp
          | some v =>
              cases v with
              | obj a =>
                  have hpa : pathOkB a (k2 :: rest2) = true := by
                    simpa [pathOkB, hlk] using hp
                  have hwfa : wfJSON (.obj a) = true :=
                    wfJSON_of_mem o hw.2 (k, .obj a) (jsLookup_mem o k _ hlk)
                  have hfun : removeAtPathE o (k :: k2 :: rest2) =
                      o.map fun e => if e.1 == k then
                        (e.1, (fun v => match v with
                          | JSONValue.obj a1 => JSONValue.obj (removeAtPathE a1 (k2 :: rest2))
                          | v1 => v1) e.2) else e := by
                    simp only [removeAtPathE]
                    apply List.map_congr_left
                    intro e _
                    by_cases he : (e.1 == k) = true
                    · rw [if_pos he, if_pos he]
                      cases e.2 <;> rfl
                    · rw [if_neg he, if_neg he]
                  simp only [compareStructure, objEntries]
                  rw [hfun]
                  rw [compareAux_modify k (fun v => match v with
                      | JSONValue.obj a1 => JSONValue.obj (removeAtPathE a1 (k2 :: rest2))
                      | v1 => v1) path o a (removeAtPathE a (k2 :: rest2))
                    hw.2 hw.1 hlk rfl]
                  have hIH := ih a (path ++ k ++ ".") hwfa hpa
                  simp only [compareStructure, objEntries] at hIH
                  rw [hIH]
                  rw [extraErrors_of_subset path
                    (o.map fun e => if e.1 == k then
                      (e.1, (fun v => match v with
                        | JSONValue.obj a1 => JSONValue.obj (removeAtPathE a1 (k2 :: rest2))
                        | v1 => v1) e.2) else e) (o.map (·.1))
                    (fun e he => by
                      have h1 : e.1 ∈ (o.map fun e => if e.1 == k then
                          (e.1, (fun v => match v with
                            | JSONValue.obj a1 => JSONValue.obj (removeAtPathE a1 (k2 :: rest2))
                            | v1 => v1) e.2) else e).map (·.1) :=
                        List.mem_map.mpr ⟨e, he, rfl⟩
                      rw [keys_map_modify k (fun v => match v with
                        | JSONValue.obj a1 => JSONValue.obj (removeAtPathE a1 (k2 :: rest2))
                        | v1 => v1) o] at h1
                      exact List.elem_iff.mpr h1)]
                  have hstr : ("Missing key in locale: " ++ (path ++ k ++ ".")) ++
                      joinDots (k2 :: rest2) =
                      "Missing key in locale: " ++ path ++ joinDots (k :: k2 :: rest2) := by
                    show _ = "Missing key in locale: " ++ path ++
                      (k ++ "." ++ joinDots (k2 :: rest2))
                    simp [String.append_assoc]
                  simp only [List.append_nil, List.cons.injEq, and_true]
                  exact hstr
              | str sv => simp [pathOkB, hlk] at hp
              | num nv => simp [pathOkB, hlk] at hp
              | bool bv => simp [pathOkB, hlk] at hp
              | null => simp [pathOkB, hlk] at hp
              | arr xs => simp [pathOkB, hlk] at hp


/-- C6 (claim theorem): a module defined with exactly two locale trees,
the second being the first with the single key at dotted path `segs`
removed, emits a warning whose divergence list is exactly
`["Missing key in locale: <dotted path>"]` — no other missing-key or
extra-key entry. -/
theorem defineModule_single_missing_key (nspace l1 l2 : String)
    (t1 : List (String × JSONValue)) (segs : List String)
    (_hne : l1 ≠ l2) (hwf : wfJSON (.obj t1) = true) (hp : pathOkB t1 segs = true) :
    (defineModule nspace [(l1, .obj t1), (l2, .obj (removeAtPathE t1 segs))]).2 =
      [⟨nspace, l1, l2, ["Missing key in locale: " ++ joinDots segs]⟩] := by
  have herr := compareStructure_removeAtPath segs t1 "" hwf hp
  have hpath : ("Missing key in locale: " ++ "" ++ joinDots segs)
      = "Missing key in locale: " ++ joinDots segs := by
    simp
  rw [hpath] at herr
  simp only [defineModule, firstDivergence, herr]
  simp

theorem defineModule_single_missing_key_witness :
    (defineModule "m"
      [("en", .obj [("a", .obj [("b", .str "B"), ("c", .str "C")]), ("d", .str "D")]),
       ("fr", .obj (removeAtPathE
         [("a", .obj [("b", .str "B"), ("c", .str "C")]), ("d", .str "D")] ["a", "b"]))]).2 =
      [⟨"m", "en", "fr", ["Missing key in locale: a.b"]⟩] := by
  have h := defineModule_single_missing_key "m" "en" "fr"
    [("a", .obj [("b", .str "B"), ("c", .str "C")]), ("d", .str "D")] ["a", "b"]
    (by decide) (by decide) (by decide)
  rw [h]
  have : ("Missing key in locale: " ++ joinDots ["a", "b"]) = "Missing key in locale: a.b" := by
    decide
  rw [this]

theorem firstDivergence_find (nspace refLoc : String) (reference : JSONValue) :
    ∀ rest : List (String × JSONValue),
      firstDivergence nspace refLoc reference rest =
        match rest.find? (fun lt => !(compareStructure reference lt.2 "").isEmpty) with
        | none => []
        | some lt => [⟨nspace, refLoc, lt.1, compareStructure reference lt.2 ""⟩] := by
  intro rest
  induction rest with
  | nil => rfl
  | cons e r ih =>
      by_cases h : compareStructure reference e.2 "" = []
      · have hp : (!(compareStructure reference e.2 "").isEmpty) = false := by
          simp [h]
        simp [firstDivergence, h, List.find?_cons, hp, ih]
      · have hp : (!(compareStructure reference e.2 "").isEmpty) = true := by
          simp [h]
        simp [firstDivergence, h, List.find?_cons, hp]

/-- C4 (claim theorem): `defineModule` always returns the module
`{namespace, translations}` unchanged; with fewer than two locales no
warning is emitted; and in general the warning list is determined by the
first subsequent locale whose tree diverges from the first-declared
(reference) locale's tree — at most one warning, later locales ignored
once a divergence is found. -/
theorem defineModule_structure (nspace : String) (translations : List (String × JSONValue)) :
    (defineModule nspace translations).1 = ⟨nspace, translations⟩ ∧
    (defineModule nspace translations).2.length ≤ 1 ∧
    (translations.length < 2 → (defineModule nspace translations).2 = []) ∧
    (∀ refLoc reference rest, translations = (refLoc, reference) :: rest →
      (defineModule nspace translations).2 =
        match rest.find? (fun lt => !(compareStructure reference lt.2 "").isEmpty) with
        | none => []
        | some lt => [⟨nspace, refLoc, lt.1, compareStructure reference lt.2 ""⟩]) := by
  refine ⟨rfl, ?_, ?_, ?_⟩
  · match translations with
    | [] => simp [defineModule]
    | [x] => simp [defineModule]
    | (refLoc, reference) :: e :: r =>
        show (firstDivergence nspace refLoc reference (e :: r)).length ≤ 1
        rw [firstDivergence_find]
        cases (e :: r).find? (fun lt => !(compareStructure reference lt.2 "").isEmpty) <;> simp
  · intro hlen
    match translations, hlen with
    | [], _ => rfl
    | [x], _ => rfl
    | x :: y :: r, hlen => exact absurd hlen (by simp)
  · intro refLoc reference rest htr
    subst htr
    cases rest with
    | nil => simp [defineModule, List.find?]
    | cons e r =>
        show firstDivergence nspace refLoc reference (e :: r) = _
        exact firstDivergence_find nspace refLoc reference (e :: r)

theorem defineModule_structure_witness :
    (defineModule "m" [("en", .obj [("a", .str "A")]), ("fr", .obj []),
        ("de", .obj [("zzz", .str "Z")])]).1 =
      ⟨"m", [("en", .obj [("a", .str "A")]), ("fr", .obj []),
        ("de", .obj [("zzz", .str "Z")])]⟩ ∧
    (defineModule "m" [("en", .obj [("a", .str "A")]), ("fr", .obj []),
        ("de", .obj [("zzz", .str "Z")])]).2 =
      [⟨"m", "en", "fr", ["Missing key in locale: a"]⟩] := by
  have h := defineModule_structure "m" [("en", .obj [("a", .str "A")]), ("fr", .obj []),
    ("de", .obj [("zzz", .str "Z")])]
  refine ⟨h.1, ?_⟩
  rw [h.2.2.2 "en" (.obj [("a", .str "A")]) [("fr", .obj []), ("de", .obj [("zzz", .str "Z")])]
    rfl]
  simp [List.find?_cons, compareStructure, compareAux, extraErrors, objEntries, jsLookup]


theorem matchContrib_eq_nil (v w : JSONValue) (path : String)
    (hrec : ¬(isRecObj v = true ∧ isRecObj w = true)) :
    (match v, w with
      | JSONValue.obj a, JSONValue.obj b =>
          compareAux a b path ++ extraErrors b (a.map (·.1)) path
      | _, _ => ([] : List String)) = [] := by
  cases v <;> cases w <;> first
    | rfl
    | exact absurd ⟨rfl, rfl⟩ hrec

theorem compareAux_erase_arg2 (k : String) :
    ∀ (x o2 : List (String × JSONValue)) (path : String), (∀ e ∈ x, e.1 ≠ k) →
      compareAux x (o2.eraseP fun e => e.1 == k) path = compareAux x o2 path := by
  intro x
  induction x with
  | nil => intro o2 path _; simp [compareAux]
  | cons e rest ih =>
      obtain ⟨k1, w1⟩ := e
      intro o2 path hx
      have hk1 : k1 ≠ k := hx (k1, w1) (by simp)
      have hcon := contains_eraseP_ne k k1 hk1 o2
      have hlk := jsLookup_eraseP_ne k k1 hk1 o2
      simp only [compareAux, hcon, hlk, ih o2 path (fun e he => hx e (by simp [he]))]

theorem compareAux_erase_both (k : String) (v1 v2 : JSONValue)
    (hrec : ¬(isRecObj v1 = true ∧ isRecObj v2 = true)) :
    ∀ (o1 o2 : List (String × JSONValue)) (path : String),
      nodupKeys (o1.map (·.1)) = true →
      jsLookup o1 k = some v1 → jsLookup o2 k = some v2 →
      compareAux (o1.eraseP fun e => e.1 == k) (o2.eraseP fun e => e.1 == k) path =
        compareAux o1 o2 path := by
  intro o1
  induction o1 with
  | nil => intro o2 path _ h1 _; simp [jsLookup] at h1
  | cons e rest ih =>
      obtain ⟨k0, v0⟩ := e
      intro o2 path hnd h1 h2
      have hnd' : ((rest.map (·.1)).contains k0 = false) ∧
          nodupKeys (rest.map (·.1)) = true := by
        simpa [nodupKeys] using hnd
      have hrestkeys : ∀ e ∈ rest, e.1 ≠ k0 := by
        intro e he h
        have hmem : k0 ∈ rest.map (·.1) := by
          rw [← h]
          exact List.mem_map.mpr ⟨e, he, rfl⟩
        have hc : ((rest.map (·.1)).contains k0) = true := List.elem_iff.mpr hmem
        rw [hnd'.1] at hc
        exact Bool.noConfusion hc
      by_cases hk : k0 = k
      · subst hk
        have hv0 : v0 = v1 := by
          rw [jsLookup, if_pos rfl] at h1
          exact Option.some.inj h1
        subst hv0
        rw [show (((k0, v0) :: rest).eraseP fun e => e.1 == k0) = rest from by
          simp [List.eraseP_cons]]
        rw [compareAux_erase_arg2 k0 rest o2 path hrestkeys]
        have hcon2 : ((o2.map (·.1)).contains k0) = true := contains_of_jsLookup o2 k0 v2 h2
        simp only [compareAux, hcon2, if_true, h2]
        rw [matchContrib_eq_nil v0 v2 (path ++ k0 ++ ".") hrec]
        rfl
      · rw [show (((k0, v0) :: rest).eraseP fun e => e.1 == k) =
            (k0, v0) :: rest.eraseP (fun e => e.1 == k) from by
          simp [List.eraseP_cons, beq_eq_false_iff_ne.mpr hk]]
        have h1rest : jsLookup rest k = some v1 := by
          rw [jsLookup, if_neg hk] at h1
          exact h1
        have hcon := contains_eraseP_ne k k0 hk o2
        have hlk := jsLookup_eraseP_ne k k0 hk o2
        simp only [compareAux, hcon, hlk, ih o2 path hnd'.2 h1rest h2]

theorem extraErrors_erase_congr (k : String) :
    ∀ (x o1 : List (String × JSONValue)) (path : String),
      (∀ e ∈ x, e.1 ≠ k) →
      extraErrors x ((o1.eraseP fun e => e.1 == k).map (·.1)) path =
        extraErrors x (o1.map (·.1)) path := by
  intro x
  induction x with
  | nil => intro o1 path _; rfl
  | cons e rest ih =>
      intro o1 path hx
      have hk : e.1 ≠ k := hx e (by simp)
      have hcon := contains_eraseP_ne k e.1 hk o1
      simp only [extraErrors, List.filterMap_cons, hcon]
      have ih' := ih o1 path (fun e' he' => hx e' (by simp [he']))
      simp only [extraErrors] at ih'
      rw [ih']

theorem extraErrors_erase_both (k : String) (v1 v2 : JSONValue) :
    ∀ (o2 o1 : List (String × JSONValue)) (path : String),
      nodupKeys (o2.map (·.1)) = true →
      jsLookup o1 k = some v1 → jsLookup o2 k = some v2 →
      extraErrors (o2.eraseP fun e => e.1 == k) ((o1.eraseP fun e => e.1 == k).map (·.1)) path =
        extraErrors o2 (o1.map (·.1)) path := by
  intro o2
  induction o2 with
  | nil => intro o1 path _ _ h2; simp [jsLookup] at h2
  | cons e rest ih =>
      obtain ⟨k0, w0⟩ := e
      intro o1 path hnd h1 h2
      have hnd' : ((rest.map (·.1)).contains k0 = false) ∧
          nodupKeys (rest.map (·.1)) = true := by
        simpa [nodupKeys] using hnd
      have hrestkeys : ∀ e ∈ rest, e.1 ≠ k0 := by
        intro e he h
        have hmem : k0 ∈ rest.map (·.1) := by
          rw [← h]
          exact List.mem_map.mpr ⟨e, he, rfl⟩
        have hc : ((rest.map (·.1)).contains k0) = true := List.elem_iff.mpr hmem
        rw [hnd'.1] at hc
        exact Bool.noConfusion hc
      by_cases hk : k0 = k
      · subst hk
        rw [show (((k0, w0) :: rest).eraseP fun e => e.1 == k0) = rest from by
          simp [List.eraseP_cons]]
        rw [extraErrors_erase_congr k0 rest o1 path hrestkeys]
        have hcon1 : ((o1.map (·.1)).contains k0) = true := contains_of_jsLookup o1 k0 v1 h1
        simp only [extraErrors, List.filterMap_cons, hcon1, if_true]
      · rw [show (((k0, w0) :: rest).eraseP fun e => e.1 == k) =
            (k0, w0) :: rest.eraseP (fun e => e.1 == k) from by
          simp [List.eraseP_cons, beq_eq_false_iff_ne.mpr hk]]
        have h2rest : jsLookup rest k = some v2 := by
          rw [jsLookup, if_neg hk] at h2
          exact h2
        have hcon := contains_eraseP_ne k k0 hk o1
        simp only [extraErrors, List.filterMap_cons, hcon]
        have ih' := ih o1 path hnd'.2 h1 h2rest
        simp only [extraErrors] at ih'
        rw [ih']

theorem compareAux_mem_recursive (k : String) (a b : List (String × JSONValue)) :
    ∀ (o1 o2 : List (String × JSONValue)) (path : String),
      (k, JSONValue.obj a) ∈ o1 → jsLookup o2 k = some (.obj b) →
      ∀ x ∈ compareAux a b (path ++ k ++ ".") ++
          extraErrors b (a.map (·.1)) (path ++ k ++ "."),
        x ∈ compareAux o1 o2 path := by
  intro o1
  induction o1 with
  | nil => intro o2 path hm; simp at hm
  | cons e rest ih =>
      obtain ⟨k1, w1⟩ := e
      intro o2 path hm h2 x hx
      rcases (by simpa using hm) with ⟨hk1, hw1⟩ | h1
      · subst hk1
        subst hw1
        have hcon : ((o2.map (·.1)).contains k) = true :=
          contains_of_jsLookup o2 k _ h2
        simp only [compareAux, hcon, if_true, h2]
        exact List.mem_append.mpr (Or.inl hx)
      · simp only [compareAux]
        exact List.mem_append.mpr (Or.inr (ih o2 path h1 h2 x hx))

/-- C5 (claim theorem): in the structural comparison, a key present in
both trees whose two values are not both non-null non-array objects
(kind mismatch, or leaves, or arrays — which are opaque) contributes no
divergence at all: deleting it from both trees leaves the report
unchanged; and when both values are objects, every divergence reported
by the recursive comparison of the two nested objects appears in the
report of the parent comparison (recursion happens exactly then). -/
theorem compareStructure_recursion_boundary
    (o1 o2 : List (String × JSONValue)) (path k : String) (v1 v2 : JSONValue)
    (h1 : jsLookup o1 k = some v1) (h2 : jsLookup o2 k = some v2)
    (hnd1 : nodupKeys (o1.map (·.1)) = true) (hnd2 : nodupKeys (o2.map (·.1)) = true) :
    (¬(isRecObj v1 = true ∧ isRecObj v2 = true) →
      compareStructure (.obj o1) (.obj o2) path =
        compareStructure (.obj (o1.eraseP fun e => e.1 == k))
          (.obj (o2.eraseP fun e => e.1 == k)) path) ∧
    (∀ a b, v1 = .obj a → v2 = .obj b →
      ∀ x ∈ compareStructure v1 v2 (path ++ k ++ "."),
        x ∈ compareStructure (.obj o1) (.obj o2) path) := by
  constructor
  · intro hrec
    simp only [compareStructure, objEntries]
    rw [compareAux_erase_both k v1 v2 hrec o1 o2 path hnd1 h1 h2]
    rw [extraErrors_erase_both k v1 v2 o2 o1 path hnd2 h1 h2]
  · intro a b ha hb x hx
    subst ha
    subst hb
    simp only [compareStructure, objEntries] at hx ⊢
    exact List.mem_append.mpr
      (Or.inl (compareAux_mem_recursive k a b o1 o2 path (jsLookup_mem o1 k _ h1) h2 x hx))

theorem compareStructure_recursion_boundary_witness :
    compareStructure (.obj [("x", .str "flat"), ("m", .str "a")])
      (.obj [("x", .obj [("c", .str "1")]), ("m", .str "b")]) "" =
      compareStructure (.obj [("m", .str "a")]) (.obj [("m", .str "b")]) "" ∧
    "Missing key in locale: x.c" ∈ compareStructure
      (.obj [("x", .obj [("c", .str "1")]), ("m", .str "a")])
      (.obj [("x", .obj []), ("m", .str "b")]) "" := by
  constructor
  · have h := (compareStructure_recursion_boundary
      [("x", .str "flat"), ("m", .str "a")] [("x", .obj [("c", .str "1")]), ("m", .str "b")]
      "" "x" (.str "flat") (.obj [("c", .str "1")]) rfl rfl (by decide) (by decide)).1
      (by intro hh; exact absurd hh.1 (by decide))
    rw [h]
    rfl
  · have h := (compareStructure_recursion_boundary
      [("x", .obj [("c", .str "1")]), ("m", .str "a")] [("x", .obj []), ("m", .str "b")]
      "" "x" (.obj [("c", .str "1")]) (.obj []) rfl rfl (by decide) (by decide)).2
      [("c", .str "1")] [] rfl rfl "Missing key in locale: x.c"
    apply h
    simp [compareStructure, compareAux, extraErrors, objEntries, jsLookup]

end TypedI18n
